import Mathlib

/-!
# EA-EGA codec: shallow embedding and verification

This file embeds the core of the `ea-ega` repository in Lean 4 and settles
a list of claims about it.

The repository contains two C programs:

* `bmp2ega.c` — packs a one-byte-per-pixel 16-colour image two pixels per
  byte, then RLE-encodes it row by row (rows processed from the last packed
  row down to row 0), preceded by a 4-byte header storing `width-1` and
  `height-1` as little-endian 16-bit fields.  Its helper `find_run` scans a
  slice (whose length parameter is a `uint8_t`) for the first run of at
  least 3 identical bytes.
* `ega2bmp.c` — reads the header, then repeatedly reads a control byte:
  high bit set means "repeat the next byte `(code & 0x7F) + 3` times",
  otherwise "copy the next `code + 1` bytes"; each packed byte is written
  to the image buffer as its two 4-bit pixels, and a row counter moves the
  destination cursor back one scanline whenever a row fills up.

Bytes are modelled as `Nat` with explicit `% 256` / `% 65536` where the C
code truncates; out-of-bounds buffer accesses (undefined behaviour in the
C code) are modelled as failures (`Option` / `Except`).  All loops are
translated with an explicit fuel argument so that every definition is
executable by kernel reduction; callers pass fuel that provably dominates
the number of iterations of the corresponding C loop.
-/

/-! ## Nibble packing and unpacking -/

/-- Packing loop of `bmp2ega.c` `main`: `px = *sp++; px <<= 4; px |= (*sp++) & 0x0f`.
`px` is a `uint8_t`, so the shift truncates: the packed byte is
`(p0 % 16) * 16 + p1 % 16`.  The C loop steps by 2 over the whole buffer
(an odd-length buffer would read one byte past the end, which is undefined;
the claims only concern even-length buffers, and the translation stops at a
trailing singleton). -/
def packPixels : List Nat → List Nat
  | p0 :: p1 :: rest => ((p0 % 16) * 16 + p1 % 16) :: packPixels rest
  | _ => []

/-- Nibble split used by the decoder of `ega2bmp.c`:
`(tv >> 4) & 0x0f` and `tv & 0x0f`. -/
def unpackByte (v : Nat) : List Nat := [v / 16 % 16, v % 16]

/-- The decoder writes, for each packed byte consumed, its high nibble then
its low nibble; `unpackBytes` is that write sequence for a list of packed
bytes. -/
def unpackBytes : List Nat → List Nat
  | [] => []
  | v :: rest => v / 16 % 16 :: v % 16 :: unpackBytes rest

/-! ## The run finder (`find_run` in `bmp2ega.c`) -/

/-- Loop of `find_run`.  State: `l` is the part of the slice not yet
scanned, `lc` the byte of the current candidate run, `lp` the start
position of the candidate, `count` its current length, `pos` the current
scan position.  On a break (`lc ≠ cc`) a candidate of length `≥ 3` is
returned at once; otherwise the candidate restarts at the current
position.  At the end of the slice a candidate of length `≥ 3` is
returned, else `(0, pos)`. -/
def findRunGo : List Nat → Nat → Nat → Nat → Nat → Nat × Nat
  | [], _, lp, count, pos =>
      if count < 3 then (0, pos) else (count, lp)
  | cc :: l, lc, lp, count, pos =>
      if lc ≠ cc then
        if 3 ≤ count then (count, lp)
        else findRunGo l cc pos 1 (pos + 1)
      else findRunGo l lc lp (count + 1) (pos + 1)

/-- `find_run(buf, len, &rpos)` on the slice `l` (the first `len` bytes at
`buf`); result is `(return value, rpos)`.  The C function reads the first
byte before checking `pos < len`, so a call with `len = 0` (which the
encoder makes when the remaining row length is a multiple of 256, the
length parameter being a `uint8_t`) reads one byte and returns
`(0, pos = 1)`; that is the `[]` case here. -/
def find_run : List Nat → Nat × Nat
  | [] => (0, 1)
  | c :: l => findRunGo l c 0 1 1

/-- Specification of the run finder, transcribed from the claim: return the
length and start offset of the first (leftmost) maximal run of at least 3
identical consecutive bytes; if no such run exists, return length `0` with
position equal to the length of the slice.  `countEq a l` is the number of
leading elements of `l` equal to `a`. -/
def countEq (a : Nat) : List Nat → Nat
  | [] => 0
  | b :: l => if b = a then 1 + countEq a l else 0

/-- See `countEq`: first maximal run of length at least 3, leftmost first. -/
def findRunSpec : List Nat → Nat × Nat
  | [] => (0, 0)
  | a :: l =>
      let k := 1 + countEq a l
      if 3 ≤ k then (k, 0)
      else
        let r := findRunSpec l
        (r.1, r.2 + 1)

/-! ## The RLE encoder (`bmp2ega.c` `main`) -/

/-- Repeat-token emission loop: `while(rlen > 130)` emit control
`127 + 0x80 = 255` and the value; the final token's control byte is
`(rlen - 3) + 0x80` computed in `int` and stored into a `uint8_t`, i.e.
`(rlen + 125) % 256` (for `rlen = 1` or `2` this wraps to `126` / `127`,
control bytes *without* the run flag).  Fuel dominates the iteration count
whenever `fuel ≥ len`. -/
def encRun : Nat → Nat → Nat → List Nat
  | 0, _, _ => []
  | fuel + 1, len, v =>
      if 130 < len then 255 :: v :: encRun fuel (len - 130) v
      else [(len + 125) % 256, v]

/-- Repeat tokens for a run of `len` copies of `v` (`len ≥ 1` at every call
site, so fuel `len` suffices). -/
def encodeRun (len v : Nat) : List Nat := encRun len len v

/-- Literal-token emission loop: `while(clen > 128)` emit control `127`
followed by 128 bytes; the final token is control `clen − 1` followed by
the remaining bytes. -/
def encLit : Nat → List Nat → List Nat
  | 0, _ => []
  | fuel + 1, l =>
      if 128 < l.length then 127 :: (l.take 128 ++ encLit fuel (l.drop 128))
      else (l.length - 1) :: l

/-- Literal tokens covering the bytes `l` (`l ≠ []` at every call site). -/
def encodeLiteral (l : List Nat) : List Nat := encLit (l.length + 1) l

/-- The run search made by one iteration of the encoder's inner loop:
`find_run(src, width - x, &rpos)` — the second argument is a `uint8_t`, so
the slice examined is the first `(w - x) % 256` bytes of the remaining
row. -/
def runSearch (row : List Nat) (w x : Nat) : Nat × Nat :=
  find_run ((row.drop x).take ((w - x) % 256))

/-- One iteration of the encoder's inner loop at position `x` of a row:
call `find_run`; if `rpos ≠ 0` emit literal tokens for the `rpos` bytes
before the run; if a run was found emit repeat tokens for it, the
replicated byte being the byte at the start of the run (`*src` after the
literal copy).  Returns the emitted bytes and the new `x`. -/
def encodeStep (row : List Nat) (w x : Nat) : List Nat × Nat :=
  let rest := row.drop x
  let fr := runSearch row w x
  let len := fr.1
  let rpos := fr.2
  let litPart := if rpos ≠ 0 then encodeLiteral (rest.take rpos) else []
  let runPart := if len ≠ 0 then encodeRun len (rest.getD rpos 0) else []
  (litPart ++ runPart, x + rpos + len)

/-- The encoder's inner loop `for(x = 0; x < width;)`.  Each iteration
advances `x` by `rpos + len ≥ 1`, so fuel `w` dominates the iteration
count. -/
def encodeRowGo : Nat → List Nat → Nat → Nat → List Nat
  | 0, _, _, _ => []
  | fuel + 1, row, w, x =>
      if x < w then
        let p := encodeStep row w x
        p.1 ++ encodeRowGo fuel row w p.2
      else []

/-- RLE encoding of one packed row. -/
def encodeRow (row : List Nat) : List Nat := encodeRowGo row.length row row.length 0

/-- The encoder's outer loop: `src` starts at the beginning of the last
packed row and moves back one row per iteration, so the rows are encoded
from index `h - 1` down to index `0`. -/
def encodeRows (packed : List Nat) (pw : Nat) : Nat → List Nat
  | 0 => []
  | y + 1 => encodeRow ((packed.drop (y * pw)).take pw) ++ encodeRows packed pw y

/-- Header serialization: `*par++ = (width - 1); *par = (height - 1)` with
`par` an `int16_t *` — the low 16 bits of `width - 1` stored little-endian
(`(w + 65535) % 65536` is `w - 1` in 16-bit two's complement, also for
`w = 0`). -/
def encodeDims (w h : Nat) : List Nat :=
  [(w + 65535) % 65536 % 256, (w + 65535) % 65536 / 256 % 256,
   (h + 65535) % 65536 % 256, (h + 65535) % 65536 / 256 % 256]

/-- Whole-image encoding of `bmp2ega.c`: header, in-place nibble packing,
`width /= 2`, then per-row RLE from the bottom-stored last row backwards. -/
def encodeImage (buf : List Nat) (w h : Nat) : List Nat :=
  encodeDims w h ++ encodeRows (packPixels buf) (w / 2) h

/-! ## The RLE decoder (`ega2bmp.c` `main`) -/

/-- Failure modes of the embedded decoder.  The C code performs raw pointer
walks; reading the source stream past its end and writing outside the
image buffer are undefined behaviour there and are modelled as
`unexpectedEof` / `oobWrite`.  `corruptStream` is the condition named by
the specification for a token overrunning its row; the translated code
never raises it (it has no row-boundary validation). -/
inductive DecErr
  | unexpectedEof
  | oobWrite
  | corruptStream
deriving DecidableEq, Repr

/-- Bounds-checked single write into a byte buffer (a C store through a
pointer is defined only inside the allocation). -/
def setAt : List Nat → Nat → Nat → Option (List Nat)
  | [], _, _ => none
  | _ :: l, 0, v => some (v :: l)
  | a :: l, n + 1, v => (setAt l n v).map (a :: ·)

/-- `*dst++ = (tv >> 4) & 0x0f; *dst++ = tv & 0x0f;` — write the two
nibbles of `v` at positions `dp`, `dp + 1` of the image buffer. -/
def writePair (img : List Nat) (dp : Int) (v : Nat) : Option (List Nat) :=
  if dp < 0 then none
  else
    match setAt img dp.toNat (v / 16 % 16) with
    | none => none
    | some img1 => setAt img1 (dp.toNat + 1) (v % 16)

/-- Repeat-token body: write the nibble pair of `v`, `n` times. -/
def writeRun : Nat → Nat → List Nat → Int → Except DecErr (List Nat × Int)
  | 0, _, img, dp => .ok (img, dp)
  | n + 1, v, img, dp =>
      match writePair img dp v with
      | none => .error .oobWrite
      | some img1 => writeRun n v img1 (dp + 2)

/-- Literal-token body: read `n` bytes from the stream, writing each one's
nibble pair.  Running out of stream is the C code's out-of-bounds read. -/
def writeLit : Nat → List Nat → List Nat → Int → Except DecErr (List Nat × Int × List Nat)
  | 0, s, img, dp => .ok (img, dp, s)
  | n + 1, s, img, dp =>
      match s with
      | [] => .error .unexpectedEof
      | b :: s' =>
          match writePair img dp b with
          | none => .error .oobWrite
          | some img1 => writeLit n s' img1 (dp + 2)

/-- The decode loop `while(src.pos < src.len)` of `ega2bmp.c`: read a
control byte `tc`; if `tc >= 128` it is a repeat token of length
`(tc & 0x7f) + 3` whose value is the next byte, else a literal token of
length `tc + 1`; after each token, if the pixel counter `x` reached the
row width, reset it and move the destination cursor back two rows'
worth (`dst -= 2 * width`).  Each iteration consumes at least one stream
byte, so fuel equal to the stream length dominates the iteration count
(the fuel-exhausted case is unreachable then). -/
def decGo : Nat → List Nat → List Nat → Int → Nat → Nat → Except DecErr (List Nat)
  | _, [], img, _, _, _ => .ok img
  | 0, _ :: _, img, _, _, _ => .ok img
  | fuel + 1, c :: s, img, dp, x, w =>
      if 128 ≤ c then
        match s with
        | [] => .error .unexpectedEof
        | v :: s' =>
            let n := c % 128 + 3
            match writeRun n v img dp with
            | .error e => .error e
            | .ok (img1, dp1) =>
                if w ≤ x + 2 * n then decGo fuel s' img1 (dp1 - 2 * w) 0 w
                else decGo fuel s' img1 dp1 (x + 2 * n) w
      else
        let n := c + 1
        match writeLit n s img dp with
        | .error e => .error e
        | .ok (img1, dp1, s1) =>
            if w ≤ x + 2 * n then decGo fuel s1 img1 (dp1 - 2 * w) 0 w
            else decGo fuel s1 img1 dp1 (x + 2 * n) w

/-- Header parsing of `ega2bmp.c`: two little-endian 16-bit reads, each
incremented in a `uint16_t` (`(raw + 1) % 65536`). -/
def decodeDims (b0 b1 b2 b3 : Nat) : Nat × Nat :=
  ((b0 + 256 * b1 + 1) % 65536, (b2 + 256 * b3 + 1) % 65536)

/-- Whole-stream decoding of `ega2bmp.c`: parse the header, allocate a
zeroed image of `w * h` pixel bytes (`calloc`), start the destination
cursor at the beginning of the last row (`&img.data[(height-1) * width]`),
and run the decode loop.  A stream shorter than the 4-byte header is an
out-of-bounds header read. -/
def decodeImage (stream : List Nat) : Except DecErr (List Nat) :=
  match stream with
  | b0 :: b1 :: b2 :: b3 :: rest =>
      let wh := decodeDims b0 b1 b2 b3
      decGo rest.length rest (List.replicate (wh.1 * wh.2) 0)
        (((wh.2 : Int) - 1) * (wh.1 : Int)) 0 wh.1
  | _ => .error .unexpectedEof

/-- Segment overwrite: the effect on the image buffer of writing the byte
sequence `ws` at position `d` (meaningful when `d + ws.length` is within
the buffer). -/
def overwrite (img : List Nat) (d : Nat) (ws : List Nat) : List Nat :=
  img.take d ++ ws ++ img.drop (d + ws.length)

/-! ## Lemmas about the run finder -/

theorem countEq_cons_self (a : Nat) (l : List Nat) : countEq a (a :: l) = 1 + countEq a l := by
  simp [countEq]

theorem countEq_cons_ne {a b : Nat} (l : List Nat) (h : b ≠ a) : countEq a (b :: l) = 0 := by
  simp [countEq, h]

theorem countEq_replicate_append (a : Nat) (n : Nat) (l : List Nat) :
    countEq a (List.replicate n a ++ l) = n + countEq a l := by
  induction n with
  | zero => simp
  | succ n ih => simp [List.replicate_succ, countEq_cons_self, ih]; omega

theorem replicate_append_cons (n : Nat) (a : Nat) (l : List Nat) :
    List.replicate n a ++ a :: l = List.replicate (n + 1) a ++ l := by
  rw [List.replicate_succ' n a, List.append_assoc]
  rfl

theorem countEq_replicate (a : Nat) (n : Nat) : countEq a (List.replicate n a) = n := by
  simpa using countEq_replicate_append a n []

/-- Specification value on a constant slice. -/
theorem findRunSpec_replicate (lc : Nat) (count : Nat) :
    findRunSpec (List.replicate count lc) =
      if 3 ≤ count then (count, 0) else (0, count) := by
  induction count with
  | zero => simp [findRunSpec]
  | succ c ih =>
    rw [List.replicate_succ, findRunSpec]
    simp only [countEq_replicate]
    by_cases h3 : 3 ≤ c + 1
    · rw [if_pos (by omega), if_pos h3, Nat.add_comm]
    · rw [if_neg (by omega), if_neg h3, ih, if_neg (by omega)]

/-- Skipping a short (length at most 2) leading streak shifts the
specification result's position by the streak length. -/
theorem findRunSpec_short (n : Nat) (a : Nat) (l : List Nat) (hn : n ≤ 2)
    (hl : countEq a l = 0) :
    findRunSpec (List.replicate n a ++ l) =
      ((findRunSpec l).1, (findRunSpec l).2 + n) := by
  interval_cases n
  · simp
  · show findRunSpec (a :: l) = _
    rw [findRunSpec]
    simp only [hl]
    rw [if_neg (by omega)]
  · show findRunSpec (a :: a :: l) = _
    rw [findRunSpec]
    simp only [countEq_cons_self, hl]
    rw [if_neg (by omega), findRunSpec]
    simp only [hl]
    rw [if_neg (by omega)]

/-- The loop of `find_run`, started in a candidate streak of `count`
copies of `lc` beginning at position `lp`, computes the specification
result for the streak prefix followed by the unscanned suffix, offset by
`lp`. -/
theorem findRunGo_eq_spec (l : List Nat) :
    ∀ lc lp count, 1 ≤ count →
      findRunGo l lc lp count (lp + count) =
        ((findRunSpec (List.replicate count lc ++ l)).1,
         (findRunSpec (List.replicate count lc ++ l)).2 + lp) := by
  induction l with
  | nil =>
    intro lc lp count hc
    rw [findRunGo, List.append_nil, findRunSpec_replicate]
    by_cases h3 : 3 ≤ count
    · rw [if_neg (by omega), if_pos h3]
      simp
    · rw [if_pos (by omega), if_neg h3]
      simp [Nat.add_comm]
  | cons cc l2 ih =>
    intro lc lp count hc
    rw [findRunGo]
    by_cases hne : lc ≠ cc
    · rw [if_pos hne]
      have hstreak : countEq lc (cc :: l2) = 0 := countEq_cons_ne l2 (fun h => hne h.symm)
      by_cases h3 : 3 ≤ count
      · rw [if_pos h3]
        obtain ⟨c, rfl⟩ : ∃ c, count = c + 1 := ⟨count - 1, by omega⟩
        rw [List.replicate_succ, List.cons_append, findRunSpec]
        simp only [countEq_replicate_append, hstreak, Nat.add_zero]
        rw [if_pos (by omega)]
        simp [Nat.add_comm]
      · rw [if_neg h3]
        have := ih cc (lp + count) 1 (by omega)
        rw [this]
        rw [findRunSpec_short count lc (cc :: l2) (by omega) hstreak]
        simp only [List.replicate_one, List.singleton_append]
        simp [Prod.ext_iff]
        omega
    · rw [if_neg hne]
      push_neg at hne
      subst hne
      have := ih lc lp (count + 1) (by omega)
      rw [show lp + (count + 1) = lp + count + 1 from rfl] at this
      rw [this, replicate_append_cons]

/-- `find_run` computes the specification exactly on every nonempty slice. -/
theorem find_run_eq_spec (l : List Nat) (h : l ≠ []) : find_run l = findRunSpec l := by
  match l with
  | a :: t =>
    show findRunGo t a 0 1 1 = _
    have := findRunGo_eq_spec t a 0 1 (by omega)
    simpa [List.replicate_one] using this

/-- When the specification reports no run, its position is the slice length. -/
theorem findRunSpec_none (l : List Nat) (h : (findRunSpec l).1 = 0) :
    (findRunSpec l).2 = l.length := by
  induction l with
  | nil => simp [findRunSpec]
  | cons a t ih =>
    rw [findRunSpec] at h ⊢
    by_cases h3 : 3 ≤ 1 + countEq a t
    · rw [if_pos h3] at h
      simp at h
    · rw [if_neg h3] at h ⊢
      simp only [List.length_cons]
      simp only at h
      rw [ih h]

/-- The specification returns either no run or a run of length at least 3. -/
theorem findRunSpec_ge3 (l : List Nat) :
    (findRunSpec l).1 = 0 ∨ 3 ≤ (findRunSpec l).1 := by
  induction l with
  | nil => simp [findRunSpec]
  | cons a t ih =>
    rw [findRunSpec]
    by_cases h3 : 3 ≤ 1 + countEq a t
    · rw [if_pos h3]
      right
      simpa using h3
    · rw [if_neg h3]
      simpa using ih

/-! ## Lemmas about nibble packing -/

theorem unpackBytes_packPixels (l : List Nat) (hlen : l.length % 2 = 0)
    (hv : ∀ v ∈ l, v < 16) : unpackBytes (packPixels l) = l := by
  match l with
  | [] => rfl
  | [a] => simp at hlen
  | a :: b :: rest =>
    have hlen2 : rest.length % 2 = 0 := by
      simp only [List.length_cons] at hlen
      omega
    have ih := unpackBytes_packPixels rest hlen2
      (fun v hm => hv v (by simp [hm]))
    have ha : a < 16 := hv a (by simp)
    have hb : b < 16 := hv b (by simp)
    show unpackBytes (((a % 16) * 16 + b % 16) :: packPixels rest) = _
    rw [unpackBytes, ih]
    have h1 : ((a % 16) * 16 + b % 16) / 16 % 16 = a := by omega
    have h2 : ((a % 16) * 16 + b % 16) % 16 = b := by omega
    rw [h1, h2]

/-! ## Lemmas about token splitting in the encoder -/

/-- The repeat-token loop splits a run of `len ≥ 1` copies of `v` into
`⌈len/130⌉` tokens whose lengths sum to `len` and lie in `[1, 130]`; every
length is at least 3 exactly when the final remainder is (`len % 130 = 0`
covers a final full token of 130). -/
theorem encRun_chunks (f : Nat) : ∀ len v, 1 ≤ len → len ≤ 130 * f + 130 →
    ∃ ks : List Nat,
      encRun (f + 1) len v = (ks.map (fun k => [(k + 125) % 256, v])).flatten ∧
      ks.length = (len + 129) / 130 ∧ ks.sum = len ∧
      (∀ k ∈ ks, 1 ≤ k ∧ k ≤ 130) ∧
      ((len % 130 = 0 ∨ 3 ≤ len % 130) → ∀ k ∈ ks, 3 ≤ k) := by
  induction f with
  | zero =>
    intro len v h1 h2
    refine ⟨[len], ?_, ?_, ?_, ?_, ?_⟩
    · rw [encRun, if_neg (by omega)]
      simp
    · simp only [List.length_cons, List.length_nil]
      omega
    · simp
    · intro k hk
      simp at hk
      omega
    · intro hc k hk
      simp at hk
      subst hk
      omega
  | succ f ih =>
    intro len v h1 h2
    by_cases hl : 130 < len
    · obtain ⟨ks, he, hlen, hsum, hb, hc⟩ := ih (len - 130) v (by omega) (by omega)
      refine ⟨130 :: ks, ?_, ?_, ?_, ?_, ?_⟩
      · rw [encRun, if_pos hl, he]
        simp
      · simp only [List.length_cons, hlen]
        omega
      · simp only [List.sum_cons, hsum]
        omega
      · intro k hk
        rcases List.mem_cons.mp hk with rfl | hk2
        · omega
        · exact hb k hk2
      · intro hcnd k hk
        rcases List.mem_cons.mp hk with rfl | hk2
        · omega
        · refine hc ?_ k hk2
          omega
    · refine ⟨[len], ?_, ?_, ?_, ?_, ?_⟩
      · rw [encRun, if_neg hl]
        simp
      · simp only [List.length_cons, List.length_nil]
        omega
      · simp
      · intro k hk
        simp at hk
        omega
      · intro hc k hk
        simp at hk
        subst hk
        omega

/-- The literal-token loop splits a nonempty literal span into
`⌈length/128⌉` chunks of size in `[1, 128]` whose concatenation is the
span, each chunk preceded by its length minus one. -/
theorem encLit_chunks (f : Nat) : ∀ l : List Nat, l ≠ [] → l.length ≤ 128 * f + 128 →
    ∃ cs : List (List Nat),
      encLit (f + 1) l = (cs.map (fun c => (c.length - 1) :: c)).flatten ∧
      cs.flatten = l ∧ cs.length = (l.length + 127) / 128 ∧
      ∀ c ∈ cs, 1 ≤ c.length ∧ c.length ≤ 128 := by
  induction f with
  | zero =>
    intro l h1 h2
    have hpos : 1 ≤ l.length := List.length_pos.mpr h1
    refine ⟨[l], ?_, by simp, ?_, ?_⟩
    · rw [encLit, if_neg (by omega)]
      simp
    · simp only [List.length_cons, List.length_nil]
      omega
    · intro c hc
      simp at hc
      subst hc
      omega
  | succ f ih =>
    intro l h1 h2
    have hpos : 1 ≤ l.length := List.length_pos.mpr h1
    by_cases hl : 128 < l.length
    · have hdlen : (l.drop 128).length = l.length - 128 := by
        simp [List.length_drop]
      obtain ⟨cs, he, hj, hlen, hb⟩ := ih (l.drop 128)
        (by
          intro hnil
          rw [hnil] at hdlen
          simp at hdlen
          omega)
        (by omega)
      have htlen : (l.take 128).length = 128 := by
        simp [List.length_take]
        omega
      refine ⟨l.take 128 :: cs, ?_, ?_, ?_, ?_⟩
      · rw [encLit, if_pos hl, he]
        simp only [List.map_cons, List.flatten_cons, htlen]
        rfl
      · simp only [List.flatten_cons, hj, List.take_append_drop]
      · simp only [List.length_cons, hlen, hdlen]
        omega
      · intro c hc
        rcases List.mem_cons.mp hc with rfl | hc2
        · omega
        · exact hb c hc2
    · refine ⟨[l], ?_, by simp, ?_, ?_⟩
      · rw [encLit, if_neg hl]
        simp
      · simp only [List.length_cons, List.length_nil]
        omega
      · intro c hc
        simp at hc
        subst hc
        omega

/-! ## Lemmas about the decoder's writes -/

theorem setAt_eq (l : List Nat) : ∀ i v, i < l.length →
    setAt l i v = some (l.take i ++ v :: l.drop (i + 1)) := by
  induction l with
  | nil => intro i v h; simp at h
  | cons a t ih =>
    intro i v h
    cases i with
    | zero => rfl
    | succ i =>
      rw [setAt, ih i v (by simpa using h)]
      rfl

theorem overwrite_nil (img : List Nat) (d : Nat) : overwrite img d [] = img := by
  simp [overwrite]

theorem overwrite_length (img : List Nat) (d : Nat) (ws : List Nat)
    (h : d + ws.length ≤ img.length) : (overwrite img d ws).length = img.length := by
  simp [overwrite, List.length_take, List.length_drop]
  omega

theorem overwrite_compose (img : List Nat) (d : Nat) (w1 w2 : List Nat)
    (h : d + w1.length + w2.length ≤ img.length) :
    overwrite (overwrite img d w1) (d + w1.length) w2 = overwrite img d (w1 ++ w2) := by
  have hd : d ≤ img.length := by omega
  have hpre : (img.take d ++ w1).length = d + w1.length := by
    simp [List.length_take]
    omega
  unfold overwrite
  rw [show img.take d ++ w1 ++ img.drop (d + w1.length) =
      (img.take d ++ w1) ++ img.drop (d + w1.length) from by rw [List.append_assoc]]
  rw [List.take_left' hpre]
  rw [List.drop_append_eq_append_drop, hpre]
  rw [List.drop_eq_nil_of_le (by omega)]
  rw [List.drop_drop]
  rw [List.nil_append, List.length_append]
  rw [show d + w1.length + (d + w1.length + w2.length - (d + w1.length)) =
      d + (w1.length + w2.length) from by omega]
  simp [List.append_assoc]

theorem writePair_spec (img : List Nat) (d v : Nat) (h : d + 2 ≤ img.length) :
    writePair img (d : Int) v = some (overwrite img d (unpackByte v)) := by
  have h1 : d < img.length := by omega
  have hA : (img.take d).length = d := by
    rw [List.length_take]
    omega
  unfold writePair
  rw [if_neg (by simp), Int.toNat_natCast]
  rw [setAt_eq img d _ h1]
  simp only []
  rw [setAt_eq _ (d + 1) _ (by simp [List.length_take, List.length_drop]; omega)]
  have htake : (img.take d ++ v / 16 % 16 :: img.drop (d + 1)).take (d + 1)
      = img.take d ++ [v / 16 % 16] := by
    rw [List.take_append_eq_append_take, hA]
    rw [List.take_of_length_le (by rw [hA]; omega)]
    rw [show d + 1 - d = 1 from by omega]
    rfl
  have hdrop : (img.take d ++ v / 16 % 16 :: img.drop (d + 1)).drop (d + 1 + 1)
      = img.drop (d + 2) := by
    rw [List.drop_append_eq_append_drop, hA]
    rw [List.drop_eq_nil_of_le (by rw [hA]; omega)]
    rw [show d + 1 + 1 - d = 2 from by omega]
    rw [List.nil_append, List.drop_succ_cons, List.drop_drop]
  rw [htake, hdrop]
  simp [overwrite, unpackByte, List.append_assoc]

theorem unpackBytes_cons (v : Nat) (l : List Nat) :
    unpackBytes (v :: l) = unpackByte v ++ unpackBytes l := rfl

theorem unpackBytes_length (l : List Nat) : (unpackBytes l).length = 2 * l.length := by
  induction l with
  | nil => rfl
  | cons v t ih =>
    rw [unpackBytes, List.length_cons, List.length_cons, ih, List.length_cons]
    omega

theorem writeRun_spec (n : Nat) : ∀ (v : Nat) (img : List Nat) (d : Nat),
    d + 2 * n ≤ img.length →
    writeRun n v img (d : Int) =
      .ok (overwrite img d (unpackBytes (List.replicate n v)), ((d + 2 * n : Nat) : Int)) := by
  induction n with
  | zero =>
    intro v img d h
    simp [writeRun, unpackBytes, overwrite_nil]
  | succ n ih =>
    intro v img d h
    rw [writeRun, writePair_spec img d v (by omega)]
    simp only []
    rw [show (d : Int) + 2 = ((d + 2 : Nat) : Int) from by push_cast; ring]
    rw [ih v _ (d + 2) (by rw [overwrite_length img d _ (by simp [unpackByte]; omega)]; omega)]
    have hcomp : d + (unpackByte v).length + (unpackBytes (List.replicate n v)).length ≤
        img.length := by
      rw [unpackBytes_length]
      simp [unpackByte, List.length_replicate]
      omega
    have h2 : d + (unpackByte v).length = d + 2 := by simp [unpackByte]
    rw [show (d + 2 : Nat) = d + (unpackByte v).length from h2.symm,
      overwrite_compose img d _ _ hcomp]
    rw [← unpackBytes_cons, ← List.replicate_succ]
    rw [h2]
    rw [show d + 2 + 2 * n = d + 2 * (n + 1) from by omega]

theorem writeLit_spec (n : Nat) : ∀ (s : List Nat) (img : List Nat) (d : Nat),
    n ≤ s.length → d + 2 * n ≤ img.length →
    writeLit n s img (d : Int) =
      .ok (overwrite img d (unpackBytes (s.take n)), ((d + 2 * n : Nat) : Int), s.drop n) := by
  induction n with
  | zero =>
    intro s img d hs h
    simp [writeLit, unpackBytes, overwrite_nil]
  | succ n ih =>
    intro s img d hs h
    match s with
    | b :: s2 =>
      rw [writeLit]
      rw [writePair_spec img d b (by omega)]
      simp only []
      rw [show (d : Int) + 2 = ((d + 2 : Nat) : Int) from by push_cast; ring]
      rw [ih s2 _ (d + 2) (by simpa using hs)
        (by rw [overwrite_length img d _ (by simp [unpackByte]; omega)]; omega)]
      have hcomp : d + (unpackByte b).length + (unpackBytes (s2.take n)).length ≤
          img.length := by
        rw [unpackBytes_length]
        simp [unpackByte, List.length_take]
        omega
      rw [show (d + 2 : Nat) = d + (unpackByte b).length from by simp [unpackByte],
        overwrite_compose img d _ _ hcomp]
      rw [← unpackBytes_cons]
      rw [show b :: s2.take n = (b :: s2).take (n + 1) from rfl]
      rw [show s2.drop n = (b :: s2).drop (n + 1) from rfl]
      rw [show d + (unpackByte b).length = d + 2 from by simp [unpackByte]]
      rw [show d + 2 + 2 * n = d + 2 * (n + 1) from by omega]

theorem decGo_nil (fuel : Nat) (img : List Nat) (dp : Int) (x w : Nat) :
    decGo fuel [] img dp x w = .ok img := by
  cases fuel <;> rfl

/-! ## The claims -/

set_option maxRecDepth 1000000

/-- Claim C1: for every valid packed-pixel image buffer (pixels in
`[0,15]`, even width, width and height at least 1), decoding the
encoder's output reproduces the buffer.  This fails on the code: on the
all-1 image of width 262 and height 1 the packed row is a run of 131
identical bytes; the encoder splits it as 130 + 1 and emits the final
token with control byte `(1 - 3) + 0x80 = 126`, which lacks the repeat
flag, so the stream no longer decodes to the original image (the decoder
reads a 127-byte literal and runs off the end of the stream). -/
theorem claim_C1_roundtrip_fails :
    encodeImage (List.replicate 262 1) 262 1 = [5, 1, 0, 0, 255, 17, 126, 17] ∧
    decodeImage (encodeImage (List.replicate 262 1) 262 1) =
      Except.error DecErr.unexpectedEof ∧
    (Except.error DecErr.unexpectedEof : Except DecErr (List Nat)) ≠
      Except.ok (List.replicate 262 1) :=
  ⟨rfl, rfl, fun h => Except.noConfusion h⟩

/-- Claim C4: on every nonempty slice, `find_run` returns the length and
start offset of the first (leftmost) maximal run of at least 3 identical
consecutive bytes (a candidate still open at the end of the slice
included), and length 0 with position equal to the slice length when no
such run exists — stated as equality with the transcription
`findRunSpec` of that contract, together with the no-run position
property and the fact that any reported run has length at least 3. -/
theorem claim_C4_find_run_contract (l : List Nat) (h : l ≠ []) :
    find_run l = findRunSpec l ∧
    ((findRunSpec l).1 = 0 → (findRunSpec l).2 = l.length) ∧
    ((findRunSpec l).1 = 0 ∨ 3 ≤ (findRunSpec l).1) :=
  ⟨find_run_eq_spec l h, findRunSpec_none l, findRunSpec_ge3 l⟩

/-- Witness for C4 at a concrete slice. -/
theorem claim_C4_witness :
    find_run [5, 5, 7, 7, 7, 9] = findRunSpec [5, 5, 7, 7, 7, 9] ∧
    ((findRunSpec [5, 5, 7, 7, 7, 9]).1 = 0 →
      (findRunSpec [5, 5, 7, 7, 7, 9]).2 = [5, 5, 7, 7, 7, 9].length) ∧
    ((findRunSpec [5, 5, 7, 7, 7, 9]).1 = 0 ∨ 3 ≤ (findRunSpec [5, 5, 7, 7, 7, 9]).1) :=
  claim_C4_find_run_contract [5, 5, 7, 7, 7, 9] (by decide)

/-- Claim C5 counterexample: the claim states that a row of 300 identical
bytes encodes as two repeat tokens with control bytes 207 and 255; the
encoder emits three tokens (lengths 130, 130, 40). -/
theorem claim_C5_counterexample : encodeRun 300 17 ≠ [207, 17, 255, 17] := by decide

/-- Claim C5 (amended): a run of `L ≥ 3` identical bytes is emitted as
`⌈L/130⌉` repeat tokens whose lengths sum to `L` and lie in `[1, 130]`;
every token length is at least 3 when `L % 130` is 0 or at least 3 (for
`L % 130 ∈ {1, 2}` and `L > 130` the final token encodes an
unrepresentable length 1 or 2); a literal span of `L ≥ 1` bytes is
emitted as `⌈L/128⌉` literal tokens of lengths in `[1, 128]`; and a run
of 300 identical bytes encodes as three repeat tokens with control bytes
255, 255, 165. -/
theorem claim_C5_token_splitting :
    (∀ len v, 3 ≤ len → ∃ ks : List Nat,
      encodeRun len v = (ks.map (fun k => [(k + 125) % 256, v])).flatten ∧
      ks.length = (len + 129) / 130 ∧ ks.sum = len ∧
      (∀ k ∈ ks, 1 ≤ k ∧ k ≤ 130) ∧
      ((len % 130 = 0 ∨ 3 ≤ len % 130) → ∀ k ∈ ks, 3 ≤ k)) ∧
    (∀ l : List Nat, l ≠ [] → ∃ cs : List (List Nat),
      encodeLiteral l = (cs.map (fun c => (c.length - 1) :: c)).flatten ∧
      cs.flatten = l ∧ cs.length = (l.length + 127) / 128 ∧
      ∀ c ∈ cs, 1 ≤ c.length ∧ c.length ≤ 128) ∧
    encodeRun 300 17 = [255, 17, 255, 17, 165, 17] := by
  refine ⟨?_, ?_, rfl⟩
  · intro len v h3
    obtain ⟨ks, he, hl, hs, hb, hc⟩ := encRun_chunks (len - 1) len v (by omega) (by omega)
    have hfuel : encRun len len v = encRun (len - 1 + 1) len v := by
      congr 1
      omega
    exact ⟨ks, by rw [encodeRun, hfuel, he], hl, hs, hb, hc⟩
  · intro l hne
    obtain ⟨cs, he, hj, hl, hb⟩ := encLit_chunks l.length l hne (by omega)
    exact ⟨cs, by rw [encodeLiteral, he], hj, hl, hb⟩

/-- Witness for C5 at a concrete run. -/
theorem claim_C5_witness :
    ∃ ks : List Nat,
      encodeRun 7 3 = (ks.map (fun k => [(k + 125) % 256, 3])).flatten ∧
      ks.length = (7 + 129) / 130 ∧ ks.sum = 7 ∧
      (∀ k ∈ ks, 1 ≤ k ∧ k ≤ 130) ∧
      ((7 % 130 = 0 ∨ 3 ≤ 7 % 130) → ∀ k ∈ ks, 3 ≤ k) :=
  claim_C5_token_splitting.1 7 3 (by norm_num)

/-- Claim C6 counterexample: the claim says the row
`[5,5,5,7,7,9,9,9,9]` encodes the run of 9s as a repeat token and all
remaining bytes as literals, i.e. the stream `[4,5,5,5,7,7,129,9]`; the
encoder instead also emits the leading `5,5,5` (a run of length 3) as a
repeat token. -/
theorem claim_C6_counterexample :
    encodeRow [5, 5, 5, 7, 7, 9, 9, 9, 9] ≠ [4, 5, 5, 5, 7, 7, 129, 9] := by decide

/-- Claim C6 (amended): `[5,5,5,7,7,9,9,9,9]` encodes as a repeat token
for `5,5,5`, a literal token for `7,7` and a repeat token for `9,9,9,9`;
`[5,5,7,7]` (no run of length at least 3) encodes as a single literal
token. -/
theorem claim_C6_examples :
    encodeRow [5, 5, 5, 7, 7, 9, 9, 9, 9] = [128, 5, 1, 7, 7, 129, 9] ∧
    encodeRow [5, 5, 7, 7] = [3, 5, 5, 7, 7] :=
  ⟨rfl, rfl⟩

/-- Claim C7: no token's decoded span crosses a scanline boundary and
concatenated independently-encoded rows decode to the original rows.
This fails on the code: the packed row of 131 identical bytes encodes
with final control byte 126, a literal token of length 127 whose decoded
span crosses the row boundary, so the two-row image built from such rows
does not decode back (the decoder walks off the image buffer). -/
theorem claim_C7_row_independence_fails :
    encodeRow (List.replicate 131 17) = [255, 17, 126, 17] ∧
    decodeImage (encodeImage (List.replicate 262 1 ++ List.replicate 262 2) 262 2) =
      Except.error DecErr.oobWrite ∧
    (Except.error DecErr.oobWrite : Except DecErr (List Nat)) ≠
      Except.ok (List.replicate 262 1 ++ List.replicate 262 2) :=
  ⟨rfl, rfl, fun h => Except.noConfusion h⟩

/-- Claim C8 counterexample: the specification's representable range is
`[1, 65536]`, but the header bytes storing `width_minus_1 = 65535`
(width 65536) decode to width 0, because the decoder increments in a
16-bit unsigned variable. -/
theorem claim_C8_counterexample :
    decodeDims 255 255 199 0 ≠ (65536, 200) ∧ decodeDims 255 255 199 0 = (0, 200) :=
  ⟨by decide, rfl⟩

/-- Claim C8 (amended): the encoder stores `width - 1` and `height - 1`
as little-endian 16-bit fields and the decoder adds 1 back; the
dimensions round-trip exactly for every width and height in
`[1, 65535]`. -/
theorem claim_C8_header_roundtrip (w h : Nat) (hw1 : 1 ≤ w) (hw2 : w ≤ 65535)
    (hh1 : 1 ≤ h) (hh2 : h ≤ 65535) :
    decodeDims ((encodeDims w h).getD 0 0) ((encodeDims w h).getD 1 0)
      ((encodeDims w h).getD 2 0) ((encodeDims w h).getD 3 0) = (w, h) := by
  simp only [encodeDims, List.getD_cons_zero, List.getD_cons_succ, decodeDims, Prod.mk.injEq]
  constructor <;> omega

/-- Witness for C8 at width 320, height 200. -/
theorem claim_C8_witness :
    decodeDims ((encodeDims 320 200).getD 0 0) ((encodeDims 320 200).getD 1 0)
      ((encodeDims 320 200).getD 2 0) ((encodeDims 320 200).getD 3 0) = (320, 200) :=
  claim_C8_header_roundtrip 320 200 (by norm_num) (by norm_num) (by norm_num) (by norm_num)

/-- Claim C9: packing an even-length sequence of pixels in `[0,15]` two
per byte (left pixel in the high nibble) and unpacking restores the
sequence. -/
theorem claim_C9_pack_unpack (l : List Nat) (hlen : l.length % 2 = 0)
    (hv : ∀ v ∈ l, v < 16) : unpackBytes (packPixels l) = l :=
  unpackBytes_packPixels l hlen hv

/-- Witness for C9 at a concrete pixel sequence. -/
theorem claim_C9_witness : unpackBytes (packPixels [1, 2, 15, 0]) = [1, 2, 15, 0] :=
  claim_C9_pack_unpack [1, 2, 15, 0] (by decide) (by decide)

/-- Claim C10: the run finder's length parameter is an 8-bit unsigned
value, so when the remaining row length exceeds 255 the run search
examines only `(remaining mod 256)` bytes: its result depends only on
that prefix, and on a row of 259 identical bytes the first search
examines 3 bytes and the encoder emits a repeat token of length 3 even
though the full remaining suffix is a run of length 259. -/
theorem claim_C10_length_truncation :
    (∀ row row' w x, 255 < w - x →
      (row.drop x).take ((w - x) % 256) = (row'.drop x).take ((w - x) % 256) →
      runSearch row w x = runSearch row' w x) ∧
    encodeStep (List.replicate 259 7) 259 0 = ([128, 7], 3) ∧
    find_run (List.replicate 259 7) = (259, 0) := by
  refine ⟨?_, rfl, rfl⟩
  intro row row' w x hgt heq
  unfold runSearch
  rw [heq]

/-- Witness for C10: two rows agreeing on the first `600 % 256 = 88`
bytes but differing beyond produce the same run-search result. -/
theorem claim_C10_witness :
    runSearch (List.replicate 600 2) 600 0 =
      runSearch (List.replicate 88 2 ++ List.replicate 512 9) 600 0 :=
  claim_C10_length_truncation.1 (List.replicate 600 2)
    (List.replicate 88 2 ++ List.replicate 512 9) 600 0 (by norm_num) (by decide)

/-- Claim C2: the decoder repeatedly reads one control byte until the
stream is exhausted; a control byte with the high bit set emits the next
value byte repeated `(code & 0x7F) + 3` times, otherwise the next
`code + 1` stream bytes are emitted verbatim — each emitted packed byte
being written to the image as its two 4-bit pixels, with the row counter
advanced and reset as in the source. -/
theorem claim_C2_decoder_tokens :
    (∀ (fuel : Nat) (img : List Nat) (dp : Int) (x w : Nat),
      decGo fuel [] img dp x w = .ok img) ∧
    (∀ (fuel c v : Nat) (s img : List Nat) (d x w : Nat), 128 ≤ c → c < 256 →
      d + 2 * (c % 128 + 3) ≤ img.length →
      decGo (fuel + 1) (c :: v :: s) img (d : Int) x w =
        (if w ≤ x + 2 * (c % 128 + 3) then
          decGo fuel s (overwrite img d (unpackBytes (List.replicate (c % 128 + 3) v)))
            (((d + 2 * (c % 128 + 3) : Nat) : Int) - 2 * (w : Int)) 0 w
        else
          decGo fuel s (overwrite img d (unpackBytes (List.replicate (c % 128 + 3) v)))
            ((d + 2 * (c % 128 + 3) : Nat) : Int) (x + 2 * (c % 128 + 3)) w)) ∧
    (∀ (fuel c : Nat) (s img : List Nat) (d x w : Nat), c < 128 → c + 1 ≤ s.length →
      d + 2 * (c + 1) ≤ img.length →
      decGo (fuel + 1) (c :: s) img (d : Int) x w =
        (if w ≤ x + 2 * (c + 1) then
          decGo fuel (s.drop (c + 1)) (overwrite img d (unpackBytes (s.take (c + 1))))
            (((d + 2 * (c + 1) : Nat) : Int) - 2 * (w : Int)) 0 w
        else
          decGo fuel (s.drop (c + 1)) (overwrite img d (unpackBytes (s.take (c + 1))))
            ((d + 2 * (c + 1) : Nat) : Int) (x + 2 * (c + 1)) w)) := by
  refine ⟨decGo_nil, ?_, ?_⟩
  · intro fuel c v s img d x w hc _hc2 hlen
    simp only [decGo]
    rw [if_pos hc]
    rw [writeRun_spec (c % 128 + 3) v img d hlen]
  · intro fuel c s img d x w hc hs hlen
    simp only [decGo]
    rw [if_neg (by omega)]
    rw [writeLit_spec (c + 1) s img d hs hlen]

/-- Witness for C2: one repeat token on a concrete image. -/
theorem claim_C2_witness :
    decGo 1 [130, 7] (List.replicate 12 1) ((0 : Nat) : Int) 0 100 =
      (if 100 ≤ 0 + 2 * (130 % 128 + 3) then
        decGo 0 [] (overwrite (List.replicate 12 1) 0
            (unpackBytes (List.replicate (130 % 128 + 3) 7)))
          (((0 + 2 * (130 % 128 + 3) : Nat) : Int) - 2 * (100 : Int)) 0 100
      else
        decGo 0 [] (overwrite (List.replicate 12 1) 0
            (unpackBytes (List.replicate (130 % 128 + 3) 7)))
          ((0 + 2 * (130 % 128 + 3) : Nat) : Int) (0 + 2 * (130 % 128 + 3)) 100) :=
  claim_C2_decoder_tokens.2.1 0 130 7 [] (List.replicate 12 1) 0 0 100
    (by norm_num) (by norm_num) (by decide)

/-- Claim C3 counterexample: a literal token whose declared length (3
packed bytes, control byte 2) exceeds the 2 remaining packed bytes of
its row does not fail with a CorruptStream condition — the decoder
silently writes across the row boundary (here overwriting part of the
previously decoded row) and returns a successful result. -/
theorem claim_C3_counterexample :
    decodeImage [3, 0, 1, 0, 1, 18, 52, 2, 86, 120, 154] =
      Except.ok [5, 6, 7, 8, 9, 10, 3, 4] := rfl

/-- Claim C3 (amended): a stream truncated immediately after a
repeat-run control byte fails (the value-byte read runs off the stream,
the embedded `unexpectedEof`), but the decoder performs no row-boundary
validation: a token overrunning its row is written across the boundary
and the decode succeeds whenever the writes stay inside the image
buffer. -/
theorem claim_C3_error_behavior :
    (∀ c, 128 ≤ c → c < 256 →
      decodeImage [3, 0, 0, 0, c] = Except.error DecErr.unexpectedEof) ∧
    decodeImage [3, 0, 1, 0, 1, 18, 52, 2, 86, 120, 154] ≠
      Except.error DecErr.corruptStream := by
  refine ⟨?_, fun h => Except.noConfusion h⟩
  intro c h1 _h2
  simp only [decodeImage, decodeDims]
  norm_num
  simp only [decGo]
  rw [if_pos h1]

/-- Witness for C3's truncation conjunct at control byte 200. -/
theorem claim_C3_witness :
    decodeImage [3, 0, 0, 0, 200] = Except.error DecErr.unexpectedEof :=
  claim_C3_error_behavior.1 200 (by norm_num) (by norm_num)
